import Mathlib

/-!
Verification of the reversible bit-stream codec in `codificador_universal.py`.

A bit string (Python string of '0'/'1' characters) is modelled as a
`List Bool`, most-significant bit first; `true` is the character '1'.
Machine integers do not occur: Python integers are unbounded, so `Nat`
models them exactly.  Fallible operations (`__init__` validation,
`decodificar`'s configuration check) return `Except`.

The only deliberate deviations from the source, each noted at its
definition, are guards that make loops total in configurations the
validated constructor can never produce (window width 0, divisor ≤ 1,
block size 0), and the wall-clock `tiempo_codificacion` metadata field,
which the source fills with a measured duration and no algorithm reads.
-/

namespace CodificadorUniversal

/-- A Python bit string: one `Bool` per character, most-significant bit first. -/
abbrev BitString := List Bool

/-- `POTENCIAS_BASE_2 = [2**1, 2**2, 2**4, 2**8, 2**16, 2**32, 2**64]`. -/
def POTENCIAS_BASE_2 : List Nat := [2 ^ 1, 2 ^ 2, 2 ^ 4, 2 ^ 8, 2 ^ 16, 2 ^ 32, 2 ^ 64]

/-- `POTENCIAS_BASE_5 = [5**1, 5**2, 5**3, 5**4]`. -/
def POTENCIAS_BASE_5 : List Nat := [5 ^ 1, 5 ^ 2, 5 ^ 3, 5 ^ 4]

/-- `BITS_MINIMO = 10`. -/
def BITS_MINIMO : Nat := 10

/-- `BITS_MAXIMO = 1000`. -/
def BITS_MAXIMO : Nat := 1000

/-- The state a successfully constructed `CodificadorUniversal` carries
(`self.base`, `self.potencia`, `self.bits_por_bloque`; `verbose` only
controls printing and is dropped). -/
structure Configuracion where
  base : Nat
  potencia : Nat
  bits_por_bloque : Nat
deriving DecidableEq, Repr

/-- The three distinguishable reasons `__init__` raises
`ConfiguracionInvalidaError`, one per message. -/
inductive ConfiguracionInvalidaError where
  | baseNoPermitida
  | potenciaNoPermitida
  | bloqueFueraDeRango
deriving DecidableEq, Repr

/-- `CodificadorUniversal.__init__`: the validation chain, in source order. -/
def mkCodificador (base potencia bits_por_bloque : Nat) :
    Except ConfiguracionInvalidaError Configuracion :=
  if base ∉ ([2, 5] : List Nat) then
    .error .baseNoPermitida
  else if base = 2 ∧ potencia ∉ POTENCIAS_BASE_2 then
    .error .potenciaNoPermitida
  else if base = 5 ∧ potencia ∉ POTENCIAS_BASE_5 then
    .error .potenciaNoPermitida
  else if ¬ (BITS_MINIMO ≤ bits_por_bloque ∧ bits_por_bloque ≤ BITS_MAXIMO) then
    .error .bloqueFueraDeRango
  else
    .ok ⟨base, potencia, bits_por_bloque⟩

/-- Python `int(s, 2)`: value of a bit string, most-significant bit first.
(The source only ever applies it to non-empty strings.) -/
def int_de_bits : BitString → Nat
  | [] => 0
  | b :: resto => (if b then 1 else 0) * 2 ^ resto.length + int_de_bits resto

/-- Python `int.bit_length()`. -/
def bit_length (n : Nat) : Nat :=
  if n = 0 then 0 else n.log2 + 1

/-- `CodificadorUniversal.binario_a_bloques`: segment into blocks of
`bits_por_bloque` bits, right-padding the final short block with zeros and
reporting the pad count.  The `bits_por_bloque = 0` guard only makes the
recursion total; the validated constructor guarantees `bits_por_bloque ≥ 10`. -/
def binario_a_bloques (bits_por_bloque : Nat) (datos_binarios : BitString) :
    List BitString × Nat :=
  if hg : bits_por_bloque = 0 ∨ datos_binarios = [] then
    ([], 0)
  else if datos_binarios.length < bits_por_bloque then
    ([datos_binarios ++ List.replicate (bits_por_bloque - datos_binarios.length) false],
      bits_por_bloque - datos_binarios.length)
  else if datos_binarios.length = bits_por_bloque then
    ([datos_binarios], 0)
  else
    let resto := binario_a_bloques bits_por_bloque (datos_binarios.drop bits_por_bloque)
    (datos_binarios.take bits_por_bloque :: resto.1, resto.2)
termination_by datos_binarios.length
decreasing_by
  have hb : bits_por_bloque ≠ 0 := fun hh => hg (Or.inl hh)
  simp only [List.length_drop]
  omega

/-- The `while valor_actual > 0` loop of `codificar_bloque_base2`: extract
`valor &&& mascara`, shift right by `bits_ventana`, repeat.  The
`bits_ventana = 0` guard only makes the recursion total; every legal
`potencia` gives a positive window width. -/
def extraer_ventanas (bits_ventana mascara valor : Nat) : List Nat :=
  if hg : valor = 0 ∨ bits_ventana = 0 then
    []
  else
    (valor &&& mascara) :: extraer_ventanas bits_ventana mascara (valor >>> bits_ventana)
termination_by valor
decreasing_by
  have h1 : valor ≠ 0 := fun hh => hg (Or.inl hh)
  have h2 : bits_ventana ≠ 0 := fun hh => hg (Or.inr hh)
  rw [Nat.shiftRight_eq_div_pow]
  exact Nat.div_lt_self (Nat.pos_of_ne_zero h1) (Nat.one_lt_two_pow h2)

/-- `CodificadorUniversal.codificar_bloque_base2` (the `numero_bloque`
argument only labels printed traces and is dropped). -/
def codificar_bloque_base2 (cfg : Configuracion) (bloque_binario : BitString) : List Nat :=
  let valor_decimal := int_de_bits bloque_binario
  let bits_ventana := bit_length cfg.potencia - 1
  let mascara := cfg.potencia - 1
  let ventanas := extraer_ventanas bits_ventana mascara valor_decimal
  if ventanas = [] then [0] else ventanas

/-- The `while cociente > 0` loop of `codificar_bloque_base5`: successive
division by `potencia`, collecting remainders.  The `potencia ≤ 1` guard only
makes the recursion total; every legal `potencia` is at least 5. -/
def extraer_residuos (potencia cociente : Nat) : List Nat :=
  if hg : cociente = 0 ∨ potencia ≤ 1 then
    []
  else
    (cociente % potencia) :: extraer_residuos potencia (cociente / potencia)
termination_by cociente
decreasing_by
  have h1 : cociente ≠ 0 := fun hh => hg (Or.inl hh)
  have h2 : ¬ potencia ≤ 1 := fun hh => hg (Or.inr hh)
  exact Nat.div_lt_self (Nat.pos_of_ne_zero h1) (by omega)

/-- `CodificadorUniversal.codificar_bloque_base5`. -/
def codificar_bloque_base5 (cfg : Configuracion) (bloque_binario : BitString) : List Nat :=
  let valor_decimal := int_de_bits bloque_binario
  let residuos := extraer_residuos cfg.potencia valor_decimal
  if residuos = [] then [0] else residuos

/-- Python `bin(v)[2:]` for `v > 0`: minimal binary rendering, most-significant
bit first (empty for `v = 0`, where the source branches separately). -/
def bin_nat (v : Nat) : BitString :=
  if v = 0 then [] else bin_nat (v / 2) ++ [decide (v % 2 = 1)]
termination_by v
decreasing_by
  exact Nat.div_lt_self (Nat.pos_of_ne_zero (by assumption)) one_lt_two

/-- Python `str.zfill(n)` on a bit string: left-pad with zeros to length `n`. -/
def zfill (n : Nat) (s : BitString) : BitString :=
  List.replicate (n - s.length) false ++ s

/-- The reconstruction loop of `decodificar_bloque_base2`:
`valor |= ventana << (idx * bits_ventana)` over the digit list. -/
def reconstruir_ventanas (bits_ventana acc idx : Nat) : List Nat → Nat
  | [] => acc
  | ventana :: resto =>
      reconstruir_ventanas bits_ventana (acc ||| (ventana <<< (idx * bits_ventana))) (idx + 1) resto

/-- `CodificadorUniversal.decodificar_bloque_base2`. -/
def decodificar_bloque_base2 (cfg : Configuracion) (valores : List Nat) : BitString :=
  let bits_ventana := bit_length cfg.potencia - 1
  let valor_reconstruido := reconstruir_ventanas bits_ventana 0 0 valores
  if valor_reconstruido = 0 then List.replicate cfg.bits_por_bloque false
  else zfill cfg.bits_por_bloque (bin_nat valor_reconstruido)

/-- The reconstruction loop of `decodificar_bloque_base5`:
`valor += residuo * potencia ^ idx` over the digit list. -/
def reconstruir_residuos (potencia acc idx : Nat) : List Nat → Nat
  | [] => acc
  | residuo :: resto =>
      reconstruir_residuos potencia (acc + residuo * potencia ^ idx) (idx + 1) resto

/-- `CodificadorUniversal.decodificar_bloque_base5`. -/
def decodificar_bloque_base5 (cfg : Configuracion) (residuos : List Nat) : BitString :=
  let valor_reconstruido := reconstruir_residuos cfg.potencia 0 0 residuos
  if valor_reconstruido = 0 then List.replicate cfg.bits_por_bloque false
  else zfill cfg.bits_por_bloque (bin_nat valor_reconstruido)

/-- The dictionary returned by `CodificadorUniversal.codificar`.
`tiempo_codificacion` is a wall-clock measurement in the source; nothing
reads it back, so its value is irrelevant and it is modelled as a number. -/
structure DatosCodificados where
  bloques_codificados : List (List Nat)
  bits_padding : Nat
  base : Nat
  potencia : Nat
  bits_por_bloque : Nat
  num_bloques : Nat
  bits_originales : Nat
  tiempo_codificacion : Nat
deriving DecidableEq, Repr

/-- `CodificadorUniversal.codificar`. -/
def codificar (cfg : Configuracion) (datos_binarios : BitString) : DatosCodificados :=
  let seg := binario_a_bloques cfg.bits_por_bloque datos_binarios
  let bloques_codificados := seg.1.map fun bloque =>
    if cfg.base = 2 then codificar_bloque_base2 cfg bloque
    else codificar_bloque_base5 cfg bloque
  { bloques_codificados := bloques_codificados
    bits_padding := seg.2
    base := cfg.base
    potencia := cfg.potencia
    bits_por_bloque := cfg.bits_por_bloque
    num_bloques := seg.1.length
    bits_originales := datos_binarios.length
    tiempo_codificacion := 0 }

/-- The three `ValueError`s `decodificar` can raise at entry, one per
mismatched configuration field, in source order. -/
inductive ValueError where
  | baseNoCoincide
  | potenciaNoCoincide
  | bloqueNoCoincide
deriving DecidableEq, Repr

/-- `CodificadorUniversal.decodificar`. -/
def decodificar (cfg : Configuracion) (datos_codificados : DatosCodificados) :
    Except ValueError BitString :=
  if datos_codificados.base ≠ cfg.base then
    .error .baseNoCoincide
  else if datos_codificados.potencia ≠ cfg.potencia then
    .error .potenciaNoCoincide
  else if datos_codificados.bits_por_bloque ≠ cfg.bits_por_bloque then
    .error .bloqueNoCoincide
  else
    let bloques_decodificados := datos_codificados.bloques_codificados.map fun valores =>
      if cfg.base = 2 then decodificar_bloque_base2 cfg valores
      else decodificar_bloque_base5 cfg valores
    let datos_reconstruidos := bloques_decodificados.flatten
    .ok (if 0 < datos_codificados.bits_padding then
        datos_reconstruidos.take (datos_reconstruidos.length - datos_codificados.bits_padding)
      else datos_reconstruidos)

/-! ### Bit-string arithmetic -/

theorem int_de_bits_append_bit (xs : BitString) (b : Bool) :
    int_de_bits (xs ++ [b]) = 2 * int_de_bits xs + (if b then 1 else 0) := by
  induction xs with
  | nil => cases b <;> simp [int_de_bits]
  | cons c resto ih =>
    cases c <;> cases b <;>
      simp [int_de_bits, ih, List.length_append, pow_succ] <;> ring

theorem int_de_bits_lt (xs : BitString) : int_de_bits xs < 2 ^ xs.length := by
  induction xs with
  | nil => simp [int_de_bits]
  | cons b resto ih =>
    cases b <;> simp [int_de_bits, pow_succ] <;> omega

theorem int_de_bits_replicate_false_append (k : Nat) (xs : BitString) :
    int_de_bits (List.replicate k false ++ xs) = int_de_bits xs := by
  induction k with
  | zero => simp
  | succ n ih => simp [List.replicate_succ, int_de_bits, ih]

theorem int_de_bits_replicate_false (k : Nat) :
    int_de_bits (List.replicate k false) = 0 := by
  have h := int_de_bits_replicate_false_append k []
  simpa [int_de_bits] using h

theorem int_de_bits_inj : ∀ xs ys : BitString, xs.length = ys.length →
    int_de_bits xs = int_de_bits ys → xs = ys := by
  intro xs
  induction xs with
  | nil =>
    intro ys hlen _
    cases ys with
    | nil => rfl
    | cons c resto => simp at hlen
  | cons b resto ih =>
    intro ys hlen hval
    cases ys with
    | nil => simp at hlen
    | cons c resto2 =>
      have hlen2 : resto.length = resto2.length := by simpa using hlen
      have hb1 := int_de_bits_lt resto
      have hb2 := int_de_bits_lt resto2
      rw [hlen2] at hb1
      simp only [int_de_bits, hlen2] at hval
      have hbc : b = c ∧ int_de_bits resto = int_de_bits resto2 := by
        cases b <;> cases c <;> simp_all <;> omega
      rw [hbc.1, ih resto2 hlen2 hbc.2]

theorem int_de_bits_bin_nat (v : Nat) : int_de_bits (bin_nat v) = v := by
  induction v using Nat.strong_induction_on with
  | _ v ih =>
    rw [bin_nat]
    by_cases hv : v = 0
    · simp [hv, int_de_bits]
    · rw [if_neg hv, int_de_bits_append_bit,
        ih (v / 2) (Nat.div_lt_self (Nat.pos_of_ne_zero hv) one_lt_two)]
      rcases Nat.mod_two_eq_zero_or_one v with h | h <;> simp [h] <;> omega

theorem bin_nat_length_le : ∀ v n : Nat, v < 2 ^ n → (bin_nat v).length ≤ n := by
  intro v
  induction v using Nat.strong_induction_on with
  | _ v ih =>
    intro n hv
    rw [bin_nat]
    by_cases h0 : v = 0
    · simp [h0]
    · rw [if_neg h0]
      have hn : n ≠ 0 := by
        rintro rfl
        simp only [pow_zero] at hv
        omega
      have hpow : (2 : Nat) ^ n = 2 ^ (n - 1) * 2 := by
        rw [← pow_succ]
        congr 1
        omega
      rw [hpow] at hv
      have hdiv : v / 2 < 2 ^ (n - 1) := by omega
      have hrec := ih (v / 2) (Nat.div_lt_self (Nat.pos_of_ne_zero h0) one_lt_two) (n - 1) hdiv
      simp only [List.length_append, List.length_cons, List.length_nil]
      omega

/-- The rendering step shared by both block decoders (`'0' * bits_por_bloque`
for zero, `bin(v)[2:].zfill(bits_por_bloque)` otherwise) returns exactly the
unique bit string of the given length with the given value. -/
theorem render_eq {n v : Nat} (hv : v < 2 ^ n) (xs : BitString)
    (hlen : xs.length = n) (hval : int_de_bits xs = v) :
    (if v = 0 then List.replicate n false else zfill n (bin_nat v)) = xs := by
  by_cases h0 : v = 0
  · rw [if_pos h0]
    apply int_de_bits_inj
    · simp [hlen]
    · rw [int_de_bits_replicate_false, hval, h0]
  · rw [if_neg h0]
    have hle : (bin_nat v).length ≤ n := bin_nat_length_le v n hv
    apply int_de_bits_inj
    · simp only [zfill, List.length_append, List.length_replicate, hlen]
      omega
    · rw [zfill, int_de_bits_replicate_false_append, int_de_bits_bin_nat, hval]

/-! ### Window extraction and reconstruction (base 2) -/

/-- Splitting off the low `w`-bit window and OR-ing it back below the shifted
remainder is the identity, at any window position `j`. -/
theorem ventana_split (v w j : Nat) :
    ((v &&& (2 ^ w - 1)) <<< j) ||| ((v >>> w) <<< (j + w)) = v <<< j := by
  apply Nat.eq_of_testBit_eq
  intro i
  simp only [Nat.testBit_or, Nat.testBit_shiftLeft, Nat.testBit_and,
    Nat.testBit_two_pow_sub_one, Nat.testBit_shiftRight]
  by_cases h1 : j ≤ i
  · by_cases h2 : i < j + w
    · have h3 : i - j < w := by omega
      have h4 : ¬ (j + w ≤ i) := by omega
      simp [h1, h2, h3, h4, ge_iff_le]
    · have h3 : ¬ (i - j < w) := by omega
      have h4 : j + w ≤ i := by omega
      have h5 : w + (i - (j + w)) = i - j := by omega
      simp [h1, h3, h4, h5, ge_iff_le]
  · have h2 : ¬ (j + w ≤ i) := by omega
    simp [h1, h2, ge_iff_le]

theorem reconstruir_extraer_ventanas (w : Nat) (hw : w ≠ 0) :
    ∀ v acc idx, reconstruir_ventanas w acc idx (extraer_ventanas w (2 ^ w - 1) v)
      = acc ||| (v <<< (idx * w)) := by
  intro v
  induction v using Nat.strong_induction_on with
  | _ v ih =>
    intro acc idx
    rw [extraer_ventanas]
    by_cases hv : v = 0
    · simp [hv, reconstruir_ventanas]
    · rw [dif_neg (by simp [hv, hw])]
      simp only [reconstruir_ventanas]
      have hlt : v >>> w < v := by
        rw [Nat.shiftRight_eq_div_pow]
        exact Nat.div_lt_self (Nat.pos_of_ne_zero hv) (Nat.one_lt_two_pow hw)
      rw [ih (v >>> w) hlt, Nat.or_assoc]
      congr 1
      have hidx : (idx + 1) * w = idx * w + w := by ring
      rw [hidx]
      exact ventana_split v w (idx * w)

/-- `decodificar_bloque_base2` recovers the integer value that
`codificar_bloque_base2`'s window loop consumed, including the all-zero
`[0]` convention. -/
theorem reconstruir_codificar_base2 (cfg : Configuracion) (k : Nat) (hk : k ≠ 0)
    (hp : cfg.potencia = 2 ^ k) (v : Nat) :
    reconstruir_ventanas (bit_length cfg.potencia - 1) 0 0
      (if extraer_ventanas (bit_length cfg.potencia - 1) (cfg.potencia - 1) v = []
        then [0] else extraer_ventanas (bit_length cfg.potencia - 1) (cfg.potencia - 1) v) = v := by
  have hw : bit_length cfg.potencia - 1 = k := by
    rw [hp, bit_length, if_neg (by simp), Nat.log2_two_pow]
    omega
  rw [hw, hp]
  by_cases hv : v = 0
  · subst hv
    rw [extraer_ventanas]
    simp [reconstruir_ventanas]
  · have hne : extraer_ventanas k (2 ^ k - 1) v ≠ [] := by
      rw [extraer_ventanas, dif_neg (by simp [hv, hk])]
      simp
    rw [if_neg hne]
    have := reconstruir_extraer_ventanas k hk v 0 0
    simpa using this

/-! ### Remainder extraction and reconstruction (base 5) -/

theorem reconstruir_extraer_residuos (p : Nat) (hp : 2 ≤ p) :
    ∀ v acc idx, reconstruir_residuos p acc idx (extraer_residuos p v)
      = acc + v * p ^ idx := by
  intro v
  induction v using Nat.strong_induction_on with
  | _ v ih =>
    intro acc idx
    rw [extraer_residuos]
    by_cases hv : v = 0
    · simp [hv, reconstruir_residuos]
    · rw [dif_neg (by simp [hv]; omega)]
      simp only [reconstruir_residuos]
      have hlt : v / p < v := Nat.div_lt_self (Nat.pos_of_ne_zero hv) (by omega)
      rw [ih (v / p) hlt]
      have hmod : v % p + p * (v / p) = v := Nat.mod_add_div v p
      conv_rhs => rw [← hmod]
      ring

/-- `decodificar_bloque_base5` recovers the integer value that
`codificar_bloque_base5`'s division loop consumed, including the all-zero
`[0]` convention. -/
theorem reconstruir_codificar_base5 (cfg : Configuracion) (hp : 2 ≤ cfg.potencia) (v : Nat) :
    reconstruir_residuos cfg.potencia 0 0
      (if extraer_residuos cfg.potencia v = [] then [0]
        else extraer_residuos cfg.potencia v) = v := by
  by_cases hv : v = 0
  · subst hv
    rw [extraer_residuos]
    simp [reconstruir_residuos]
  · have hne : extraer_residuos cfg.potencia v ≠ [] := by
      rw [extraer_residuos, dif_neg (by simp [hv]; omega)]
      simp
    rw [if_neg hne]
    have := reconstruir_extraer_residuos cfg.potencia hp v 0 0
    simpa using this

/-! ### Per-block round trips -/

theorem bloque_base2_roundtrip (cfg : Configuracion) (k : Nat) (hk : k ≠ 0)
    (hp : cfg.potencia = 2 ^ k) (bloque : BitString)
    (hlen : bloque.length = cfg.bits_por_bloque) :
    decodificar_bloque_base2 cfg (codificar_bloque_base2 cfg bloque) = bloque := by
  have hv : int_de_bits bloque < 2 ^ cfg.bits_por_bloque := hlen ▸ int_de_bits_lt bloque
  have hrec := reconstruir_codificar_base2 cfg k hk hp (int_de_bits bloque)
  simp only [codificar_bloque_base2, decodificar_bloque_base2]
  rw [hrec]
  exact render_eq hv bloque hlen rfl

theorem bloque_base5_roundtrip (cfg : Configuracion) (hp : 2 ≤ cfg.potencia)
    (bloque : BitString) (hlen : bloque.length = cfg.bits_por_bloque) :
    decodificar_bloque_base5 cfg (codificar_bloque_base5 cfg bloque) = bloque := by
  have hv : int_de_bits bloque < 2 ^ cfg.bits_por_bloque := hlen ▸ int_de_bits_lt bloque
  have hrec := reconstruir_codificar_base5 cfg hp (int_de_bits bloque)
  simp only [codificar_bloque_base5, decodificar_bloque_base5]
  rw [hrec]
  exact render_eq hv bloque hlen rfl

/-! ### Legal powers -/

theorem potencia_base2_cases {p : Nat} (hp : p ∈ POTENCIAS_BASE_2) :
    ∃ k, k ≠ 0 ∧ p = 2 ^ k := by
  simp only [POTENCIAS_BASE_2, List.mem_cons, List.mem_singleton, List.not_mem_nil,
    or_false] at hp
  rcases hp with h | h | h | h | h | h | h
  · exact ⟨1, by norm_num, h⟩
  · exact ⟨2, by norm_num, h⟩
  · exact ⟨4, by norm_num, h⟩
  · exact ⟨8, by norm_num, h⟩
  · exact ⟨16, by norm_num, h⟩
  · exact ⟨32, by norm_num, h⟩
  · exact ⟨64, by norm_num, h⟩

theorem potencia_base5_dos_le {p : Nat} (hp : p ∈ POTENCIAS_BASE_5) : 2 ≤ p := by
  simp only [POTENCIAS_BASE_5, List.mem_cons, List.mem_singleton, List.not_mem_nil,
    or_false] at hp
  rcases hp with h | h | h | h <;> subst h <;> norm_num

/-! ### Segmentation -/

theorem binario_a_bloques_spec_aux : ∀ (n bpb : Nat) (datos : BitString),
    datos.length ≤ n → bpb ≠ 0 →
    (∀ b ∈ (binario_a_bloques bpb datos).1, b.length = bpb) ∧
    (binario_a_bloques bpb datos).1.flatten
      = datos ++ List.replicate (binario_a_bloques bpb datos).2 false ∧
    (binario_a_bloques bpb datos).2 < bpb ∧
    ((binario_a_bloques bpb datos).2 = 0 ↔ datos.length % bpb = 0) := by
  intro n
  induction n with
  | zero =>
    intro bpb datos hlen hbpb
    have hd : datos = [] := List.eq_nil_of_length_eq_zero (by omega)
    subst hd
    rw [binario_a_bloques, dif_pos (Or.inr rfl)]
    simp [Nat.pos_of_ne_zero hbpb]
  | succ m ih =>
    intro bpb datos hlen hbpb
    by_cases hd : datos = []
    · subst hd
      rw [binario_a_bloques, dif_pos (Or.inr rfl)]
      simp [Nat.pos_of_ne_zero hbpb]
    · have hpos : 0 < datos.length := List.length_pos.mpr hd
      rw [binario_a_bloques, dif_neg (by simp [hbpb, hd])]
      by_cases h1 : datos.length < bpb
      · rw [if_pos h1]
        refine ⟨?_, ?_, ?_, ?_⟩
        · intro b hb
          simp only [List.mem_singleton] at hb
          subst hb
          simp only [List.length_append, List.length_replicate]
          omega
        · simp
        · simp only []
          omega
        · rw [Nat.mod_eq_of_lt h1]
          omega
      · rw [if_neg h1]
        by_cases h2 : datos.length = bpb
        · rw [if_pos h2]
          refine ⟨?_, by simp, Nat.pos_of_ne_zero hbpb, ?_⟩
          · intro b hb
            simp only [List.mem_singleton] at hb
            subst hb
            exact h2
          · simp [h2, Nat.mod_self]
        · rw [if_neg h2]
          have hgt : bpb < datos.length := by omega
          have hdrop : (datos.drop bpb).length ≤ m := by
            simp only [List.length_drop]
            omega
          obtain ⟨ihall, ihflat, ihlt, ihz⟩ := ih bpb (datos.drop bpb) hdrop hbpb
          refine ⟨?_, ?_, ihlt, ?_⟩
          · intro b hb
            simp only [List.mem_cons] at hb
            rcases hb with hb | hb
            · subst hb
              simp only [List.length_take]
              omega
            · exact ihall b hb
          · simp only [List.flatten_cons, ihflat, ← List.append_assoc,
              List.take_append_drop]
          · rw [ihz, List.length_drop, ← Nat.mod_eq_sub_mod (by omega)]

theorem binario_a_bloques_spec (bpb : Nat) (hbpb : bpb ≠ 0) (datos : BitString) :
    (∀ b ∈ (binario_a_bloques bpb datos).1, b.length = bpb) ∧
    (binario_a_bloques bpb datos).1.flatten
      = datos ++ List.replicate (binario_a_bloques bpb datos).2 false ∧
    (binario_a_bloques bpb datos).2 < bpb ∧
    ((binario_a_bloques bpb datos).2 = 0 ↔ datos.length % bpb = 0) :=
  binario_a_bloques_spec_aux datos.length bpb datos le_rfl hbpb

/-! ### Stream-level round trip -/

theorem map_id_of_mem {α : Type} {f : α → α} : ∀ {l : List α}, (∀ a ∈ l, f a = a) →
    l.map f = l := by
  intro l
  induction l with
  | nil => intro _; rfl
  | cons x resto ih =>
    intro h
    simp only [List.map_cons, h x (by simp)]
    rw [ih (fun a ha => h a (by simp [ha]))]

/-- `decodificar` inverts `codificar` as soon as every block of the right
length round-trips through the selected block codec. -/
theorem decodificar_codificar_aux (cfg : Configuracion) (hbpb : cfg.bits_por_bloque ≠ 0)
    (hblock : ∀ b : BitString, b.length = cfg.bits_por_bloque →
      (if cfg.base = 2 then decodificar_bloque_base2 cfg (codificar_bloque_base2 cfg b)
        else decodificar_bloque_base5 cfg (codificar_bloque_base5 cfg b)) = b)
    (datos : BitString) :
    decodificar cfg (codificar cfg datos) = Except.ok datos := by
  obtain ⟨hall, hflat, hlt, hz⟩ := binario_a_bloques_spec cfg.bits_por_bloque hbpb datos
  simp only [codificar, decodificar, ne_eq, not_true_eq_false, if_false, List.map_map]
  have hmap : ((binario_a_bloques cfg.bits_por_bloque datos).1.map
      ((fun valores =>
          if cfg.base = 2 then decodificar_bloque_base2 cfg valores
          else decodificar_bloque_base5 cfg valores) ∘
        fun bloque =>
          if cfg.base = 2 then codificar_bloque_base2 cfg bloque
          else codificar_bloque_base5 cfg bloque))
      = (binario_a_bloques cfg.bits_por_bloque datos).1 := by
    apply map_id_of_mem
    intro b hb
    have hlenb := hall b hb
    by_cases hbase : cfg.base = 2
    · simpa [Function.comp, hbase] using hblock b hlenb
    · simpa [Function.comp, hbase] using hblock b hlenb
  rw [hmap, hflat]
  by_cases hpad : (binario_a_bloques cfg.bits_por_bloque datos).2 = 0
  · simp [hpad]
  · rw [if_pos (Nat.pos_of_ne_zero hpad)]
    congr 1
    rw [List.length_append, List.length_replicate, Nat.add_sub_cancel]
    exact List.take_left' rfl

/-- C1 — full-stream round trip for every configuration the validated
constructor accepts and every bit string. -/
theorem claim_C1_roundtrip (base potencia bpb : Nat) (cfg : Configuracion)
    (hcfg : mkCodificador base potencia bpb = Except.ok cfg) (datos : BitString) :
    decodificar cfg (codificar cfg datos) = Except.ok datos := by
  unfold mkCodificador at hcfg
  split_ifs at hcfg with h1 h2 h3 h4
  have hcfg2 : cfg = ⟨base, potencia, bpb⟩ := (Except.ok.inj hcfg).symm
  subst hcfg2
  have hbpb : (Configuracion.mk base potencia bpb).bits_por_bloque ≠ 0 := by
    simp only [BITS_MINIMO, BITS_MAXIMO] at h4
    simp only []
    omega
  apply decodificar_codificar_aux _ hbpb
  intro b hlenb
  simp only [List.mem_cons, List.mem_singleton, List.not_mem_nil, or_false] at h1
  rcases h1 with hb2 | hb5
  · subst hb2
    rw [if_pos rfl]
    have hp2 : potencia ∈ POTENCIAS_BASE_2 := by
      by_contra hnp
      exact h2 ⟨rfl, hnp⟩
    obtain ⟨k, hk, hpk⟩ := potencia_base2_cases hp2
    exact bloque_base2_roundtrip _ k hk hpk b hlenb
  · subst hb5
    rw [if_neg (by norm_num)]
    have hp5 : potencia ∈ POTENCIAS_BASE_5 := by
      by_contra hnp
      exact h3 ⟨rfl, hnp⟩
    exact bloque_base5_roundtrip _ (potencia_base5_dos_le hp5) b hlenb

/-- C2 — base-2 window codec: for every legal base-2 power and every block of
exactly `bits_por_bloque` bits (whether or not that is a multiple of the
window width), decoding the encoded window sequence returns the block. -/
theorem claim_C2_bloque_base2 (cfg : Configuracion)
    (hp : cfg.potencia ∈ POTENCIAS_BASE_2) (bloque : BitString)
    (hlen : bloque.length = cfg.bits_por_bloque) :
    decodificar_bloque_base2 cfg (codificar_bloque_base2 cfg bloque) = bloque := by
  obtain ⟨k, hk, hpk⟩ := potencia_base2_cases hp
  exact bloque_base2_roundtrip cfg k hk hpk bloque hlen

/-- Witness for C2 at `potencia = 4`, `bits_por_bloque = 11` (11 is not a
multiple of the window width 2). -/
theorem claim_C2_bloque_base2_witness :
    decodificar_bloque_base2 ⟨2, 4, 11⟩
      (codificar_bloque_base2 ⟨2, 4, 11⟩ (List.replicate 11 true))
      = List.replicate 11 true :=
  claim_C2_bloque_base2 ⟨2, 4, 11⟩ (by decide) (List.replicate 11 true) (by simp)

/-- C3 — base-5 positional codec: for every legal base-5 power and every block
of exactly `bits_por_bloque` bits, decoding the encoded digit sequence
returns the block. -/
theorem claim_C3_bloque_base5 (cfg : Configuracion)
    (hp : cfg.potencia ∈ POTENCIAS_BASE_5) (bloque : BitString)
    (hlen : bloque.length = cfg.bits_por_bloque) :
    decodificar_bloque_base5 cfg (codificar_bloque_base5 cfg bloque) = bloque :=
  bloque_base5_roundtrip cfg (potencia_base5_dos_le hp) bloque hlen

/-- Witness for C3 at `potencia = 25`, `bits_por_bloque = 10`. -/
theorem claim_C3_bloque_base5_witness :
    decodificar_bloque_base5 ⟨5, 25, 10⟩
      (codificar_bloque_base5 ⟨5, 25, 10⟩ (List.replicate 10 true))
      = List.replicate 10 true :=
  claim_C3_bloque_base5 ⟨5, 25, 10⟩ (by decide) (List.replicate 10 true) (by simp)

/-- C4 — segmentation: the pad count is in `[0, bits_por_bloque)` and vanishes
exactly on multiples of the block size; the empty input yields no blocks and
no padding; every produced block has exactly `bits_por_bloque` bits; and the
blocks concatenate to the input followed by the reported number of zero pad
bits. -/
theorem claim_C4_segmentacion (bpb : Nat) (datos : BitString)
    (h1 : 10 ≤ bpb) (h2 : bpb ≤ 1000) :
    (binario_a_bloques bpb datos).2 < bpb ∧
    ((binario_a_bloques bpb datos).2 = 0 ↔ datos.length % bpb = 0) ∧
    (datos = [] → binario_a_bloques bpb datos = ([], 0)) ∧
    (∀ b ∈ (binario_a_bloques bpb datos).1, b.length = bpb) ∧
    (binario_a_bloques bpb datos).1.flatten
      = datos ++ List.replicate (binario_a_bloques bpb datos).2 false := by
  obtain ⟨hall, hflat, hlt, hz⟩ := binario_a_bloques_spec bpb (by omega) datos
  refine ⟨hlt, hz, ?_, hall, hflat⟩
  intro hd
  subst hd
  rw [binario_a_bloques, dif_pos (Or.inr rfl)]

/-- Witness for C4: one 1-bit input at block size 10 gets 9 pad bits. -/
theorem claim_C4_segmentacion_witness :
    (binario_a_bloques 10 [true]).2 < 10 :=
  (claim_C4_segmentacion 10 [true] (by norm_num) (by norm_num)).1

/-- C7 — an all-zero block of the configured size encodes to the single-digit
sequence `[0]` under both block codecs. -/
theorem claim_C7_bloque_cero (cfg : Configuracion) (h1 : 10 ≤ cfg.bits_por_bloque)
    (h2 : cfg.bits_por_bloque ≤ 1000) :
    codificar_bloque_base2 cfg (List.replicate cfg.bits_por_bloque false) = [0] ∧
    codificar_bloque_base5 cfg (List.replicate cfg.bits_por_bloque false) = [0] := by
  have hz := int_de_bits_replicate_false cfg.bits_por_bloque
  constructor
  · simp only [codificar_bloque_base2, hz]
    rw [extraer_ventanas]
    simp
  · simp only [codificar_bloque_base5, hz]
    rw [extraer_residuos]
    simp

/-- Witness for C7 at `bits_por_bloque = 10`. -/
theorem claim_C7_bloque_cero_witness :
    codificar_bloque_base2 ⟨2, 4, 10⟩ (List.replicate 10 false) = [0] ∧
    codificar_bloque_base5 ⟨2, 4, 10⟩ (List.replicate 10 false) = [0] :=
  claim_C7_bloque_cero ⟨2, 4, 10⟩ (by decide) (by decide)

/-- Witness for C1: base 2, `potencia = 4`, `bits_por_bloque = 10`, a 3-bit
input (so segmentation pads). -/
theorem claim_C1_roundtrip_witness :
    decodificar ⟨2, 4, 10⟩ (codificar ⟨2, 4, 10⟩ [true, false, true])
      = Except.ok [true, false, true] :=
  claim_C1_roundtrip 2 4 10 ⟨2, 4, 10⟩ rfl [true, false, true]

/-- C5 — construction fails exactly on an illegal base, an illegal power for
the chosen base, or an out-of-range block size; the four quoted calls fail
with the corresponding reason. -/
theorem claim_C5_validacion :
    (∀ base potencia bpb : Nat,
      (∃ e, mkCodificador base potencia bpb = Except.error e) ↔
        ¬ ((base = 2 ∨ base = 5) ∧
          (base = 2 →
            potencia ∈ ([2 ^ 1, 2 ^ 2, 2 ^ 4, 2 ^ 8, 2 ^ 16, 2 ^ 32, 2 ^ 64] : List Nat)) ∧
          (base = 5 → potencia ∈ ([5, 25, 125, 625] : List Nat)) ∧
          10 ≤ bpb ∧ bpb ≤ 1000)) ∧
    mkCodificador 10 100 40 = Except.error ConfiguracionInvalidaError.baseNoPermitida ∧
    mkCodificador 2 32 40 = Except.error ConfiguracionInvalidaError.potenciaNoPermitida ∧
    mkCodificador 5 25 5 = Except.error ConfiguracionInvalidaError.bloqueFueraDeRango ∧
    mkCodificador 5 25 1500 = Except.error ConfiguracionInvalidaError.bloqueFueraDeRango := by
  refine ⟨?_, rfl, rfl, rfl, rfl⟩
  intro base potencia bpb
  by_cases hA : base ∈ ([2, 5] : List Nat)
  · by_cases hB : base = 2 ∧ potencia ∉ POTENCIAS_BASE_2
    · refine iff_of_true ⟨.potenciaNoPermitida, ?_⟩ ?_
      · unfold mkCodificador
        rw [if_neg (not_not_intro hA), if_pos hB]
      · rintro ⟨-, hp2, -⟩
        exact hB.2 (by simpa [POTENCIAS_BASE_2] using hp2 hB.1)
    · by_cases hC : base = 5 ∧ potencia ∉ POTENCIAS_BASE_5
      · refine iff_of_true ⟨.potenciaNoPermitida, ?_⟩ ?_
        · unfold mkCodificador
          rw [if_neg (not_not_intro hA), if_neg hB, if_pos hC]
        · rintro ⟨-, -, hp5, -⟩
          exact hC.2 (by simpa [POTENCIAS_BASE_5] using hp5 hC.1)
      · by_cases hD : BITS_MINIMO ≤ bpb ∧ bpb ≤ BITS_MAXIMO
        · refine iff_of_false ?_ ?_
          · rintro ⟨e, he⟩
            have hok : mkCodificador base potencia bpb = .ok ⟨base, potencia, bpb⟩ := by
              unfold mkCodificador
              rw [if_neg (not_not_intro hA), if_neg hB, if_neg hC, if_neg (not_not_intro hD)]
            rw [hok] at he
            exact Except.noConfusion he
          · intro hnv
            apply hnv
            simp only [BITS_MINIMO, BITS_MAXIMO] at hD
            refine ⟨by simpa using hA, ?_, ?_, hD.1, hD.2⟩
            · intro hb2
              by_contra hnp
              exact hB ⟨hb2, by simpa [POTENCIAS_BASE_2] using hnp⟩
            · intro hb5
              by_contra hnp
              exact hC ⟨hb5, by simpa [POTENCIAS_BASE_5] using hnp⟩
        · refine iff_of_true ⟨.bloqueFueraDeRango, ?_⟩ ?_
          · unfold mkCodificador
            rw [if_neg (not_not_intro hA), if_neg hB, if_neg hC, if_pos hD]
          · rintro ⟨-, -, -, hb1, hb2⟩
            exact hD ⟨by simpa [BITS_MINIMO] using hb1, by simpa [BITS_MAXIMO] using hb2⟩
  · refine iff_of_true ⟨.baseNoPermitida, ?_⟩ ?_
    · unfold mkCodificador
      rw [if_pos hA]
    · rintro ⟨hb, -⟩
      rcases hb with hb | hb <;> exact hA (by simp [hb])

/-- C6 — when any of the stream's recorded `base`, `potencia`,
`bits_por_bloque` disagrees with the decoder's configuration, `decodificar`
fails with the error naming the (first) mismatched field, and the result is
the same for every block payload: no block is decoded and no partial result
is produced. -/
theorem claim_C6_mismatch (cfg : Configuracion) (dc : DatosCodificados)
    (bloques : List (List Nat))
    (h : dc.base ≠ cfg.base ∨ dc.potencia ≠ cfg.potencia ∨
      dc.bits_por_bloque ≠ cfg.bits_por_bloque) :
    decodificar cfg dc = Except.error
      (if dc.base ≠ cfg.base then ValueError.baseNoCoincide
        else if dc.potencia ≠ cfg.potencia then ValueError.potenciaNoCoincide
        else ValueError.bloqueNoCoincide) ∧
    decodificar cfg { dc with bloques_codificados := bloques } = Except.error
      (if dc.base ≠ cfg.base then ValueError.baseNoCoincide
        else if dc.potencia ≠ cfg.potencia then ValueError.potenciaNoCoincide
        else ValueError.bloqueNoCoincide) := by
  by_cases hb : dc.base = cfg.base
  · by_cases hp : dc.potencia = cfg.potencia
    · have hbl : dc.bits_por_bloque ≠ cfg.bits_por_bloque := by tauto
      constructor <;> simp [decodificar, hb, hp, hbl]
    · constructor <;> simp [decodificar, hb, hp]
  · constructor <;> simp [decodificar, hb]

/-- Witness for C6: a base-5 stream decoded with a base-2 configuration. -/
theorem claim_C6_mismatch_witness :
    decodificar ⟨2, 4, 10⟩ ⟨[[1]], 0, 5, 4, 10, 1, 10, 0⟩
      = Except.error ValueError.baseNoCoincide ∧
    decodificar ⟨2, 4, 10⟩ ⟨[], 0, 5, 4, 10, 1, 10, 0⟩
      = Except.error ValueError.baseNoCoincide :=
  claim_C6_mismatch ⟨2, 4, 10⟩ ⟨[[1]], 0, 5, 4, 10, 1, 10, 0⟩ [] (by decide)

/-- Every member of a window list is at most the mask. -/
theorem mem_extraer_ventanas_le {w m : Nat} : ∀ v d, d ∈ extraer_ventanas w m v → d ≤ m := by
  intro v
  induction v using Nat.strong_induction_on with
  | _ v ih =>
    intro d hd
    rw [extraer_ventanas] at hd
    by_cases hg : v = 0 ∨ w = 0
    · rw [dif_pos hg] at hd
      simp at hd
    · rw [dif_neg hg] at hd
      push_neg at hg
      rcases List.mem_cons.mp hd with h | h
      · subst h
        exact Nat.and_le_right
      · have hlt : v >>> w < v := by
          rw [Nat.shiftRight_eq_div_pow]
          exact Nat.div_lt_self (Nat.pos_of_ne_zero hg.1) (Nat.one_lt_two_pow hg.2)
        exact ih _ hlt d h

/-- Every member of a remainder list is less than the divisor. -/
theorem mem_extraer_residuos_lt {p : Nat} : ∀ v d, d ∈ extraer_residuos p v → d < p := by
  intro v
  induction v using Nat.strong_induction_on with
  | _ v ih =>
    intro d hd
    rw [extraer_residuos] at hd
    by_cases hg : v = 0 ∨ p ≤ 1
    · rw [dif_pos hg] at hd
      simp at hd
    · rw [dif_neg hg] at hd
      push_neg at hg
      rcases List.mem_cons.mp hd with h | h
      · subst h
        exact Nat.mod_lt _ (by omega)
      · exact ih _ (Nat.div_lt_self (Nat.pos_of_ne_zero hg.1) (by omega)) d h

/-- C9 — every digit either block encoder emits is a non-negative integer
strictly below the configured power. -/
theorem claim_C9_digitos (cfg : Configuracion) (hp : 1 ≤ cfg.potencia)
    (bloque : BitString) (d : Nat)
    (hd : d ∈ codificar_bloque_base2 cfg bloque ∨ d ∈ codificar_bloque_base5 cfg bloque) :
    d < cfg.potencia := by
  rcases hd with hd | hd
  · simp only [codificar_bloque_base2] at hd
    by_cases hL : extraer_ventanas (bit_length cfg.potencia - 1) (cfg.potencia - 1)
        (int_de_bits bloque) = []
    · rw [if_pos hL] at hd
      simp only [List.mem_singleton] at hd
      omega
    · rw [if_neg hL] at hd
      have := mem_extraer_ventanas_le _ d hd
      omega
  · simp only [codificar_bloque_base5] at hd
    by_cases hL : extraer_residuos cfg.potencia (int_de_bits bloque) = []
    · rw [if_pos hL] at hd
      simp only [List.mem_singleton] at hd
      omega
    · rw [if_neg hL] at hd
      exact mem_extraer_residuos_lt _ d hd

/-- Witness for C9: the digit of an all-zero 10-bit block under base 2. -/
theorem claim_C9_digitos_witness : (0 : Nat) < 4 :=
  claim_C9_digitos ⟨2, 4, 10⟩ (by decide) (List.replicate 10 false) 0
    (Or.inl (by simp [codificar_bloque_base2, int_de_bits, extraer_ventanas,
      List.replicate]))

/-- C10 — `decodificar` reads only the stream's block list, pad count, base,
power and block size: two streams agreeing on those five fields decode
identically, whatever their `num_bloques`, `bits_originales` and timing
metadata say. -/
theorem claim_C10_sin_metadatos (cfg : Configuracion) (s t : DatosCodificados)
    (h1 : s.bloques_codificados = t.bloques_codificados)
    (h2 : s.bits_padding = t.bits_padding)
    (h3 : s.base = t.base) (h4 : s.potencia = t.potencia)
    (h5 : s.bits_por_bloque = t.bits_por_bloque) :
    decodificar cfg s = decodificar cfg t := by
  simp only [decodificar, h1, h2, h3, h4, h5]

/-- Witness for C10: identical core fields, wildly different metadata. -/
theorem claim_C10_sin_metadatos_witness :
    decodificar ⟨2, 4, 10⟩ ⟨[[1]], 0, 2, 4, 10, 1, 10, 0⟩
      = decodificar ⟨2, 4, 10⟩ ⟨[[1]], 0, 2, 4, 10, 99, 12345, 777⟩ :=
  claim_C10_sin_metadatos ⟨2, 4, 10⟩ ⟨[[1]], 0, 2, 4, 10, 1, 10, 0⟩
    ⟨[[1]], 0, 2, 4, 10, 99, 12345, 777⟩ rfl rfl rfl rfl rfl

end CodificadorUniversal
